import Mathlib

/-!
Verification of the path-mapping core of mpy-workbench (`pathMapping.ts`).

TypeScript strings are modelled as `List Char`.  Each definition below is a
shallow embedding of the homonymous function of the source file; the optional
`mappings : PathMapping[] | undefined` argument becomes `Option (List PathMapping)`,
with `none` playing the role of `undefined` (the code treats it like `[]`).
-/

/-- Embedding of `p.replace(/\\/g, "/")`: every backslash becomes a forward slash. -/
def backslashToSlash (p : List Char) : List Char :=
  p.map (fun c => if c = '\\' then '/' else c)

/-- Embedding of `p.replace(/\/+/g, "/")`: every maximal run of slashes collapses to one. -/
def collapseSlashes : List Char → List Char
  | [] => []
  | [c] => [c]
  | c1 :: c2 :: rest =>
    if c1 = '/' ∧ c2 = '/' then collapseSlashes (c2 :: rest)
    else c1 :: collapseSlashes (c2 :: rest)

/-- Embedding of `p.replace(/\/$/, "")`: one trailing slash, if any, is removed. -/
def dropTrailingSlash (p : List Char) : List Char :=
  if p.getLast? = some '/' then p.dropLast else p

/-- Embedding of `normalizePath` (pathMapping.ts line 72):
`p.replace(/\\/g, "/").replace(/\/+/g, "/").replace(/\/$/, "")`. -/
def normalizePath (p : List Char) : List Char :=
  dropTrailingSlash (collapseSlashes (backslashToSlash p))

/-- Embedding of the `PathMapping` interface: a local path `local` and a device path `device`. -/
structure PathMapping where
  «local» : List Char
  device : List Char
deriving DecidableEq, Repr

/-- The effective root used by both mapping directions:
`rootPath === "/" ? "" : normalizePath(rootPath)`. -/
def normRoot (rootPath : List Char) : List Char :=
  if rootPath = ['/'] then [] else normalizePath rootPath

/-- The default join used by `applyPathMappings` when no rule list or no rule applies:
`"/" + localRel` under an empty effective root, `rootPath + "/" + localRel` otherwise. -/
def noMappingJoin (nRoot nLocalRel : List Char) : List Char :=
  if nRoot = [] then '/' :: nLocalRel else nRoot ++ '/' :: nLocalRel

/-- The condition on which the `applyPathMappings` loop returns at rule `m`: the
normalized local path equals the rule's normalized local prefix, or extends it past a slash. -/
def ruleMatches (nLocalRel : List Char) (m : PathMapping) : Bool :=
  decide (nLocalRel = normalizePath m.«local»)
    || (normalizePath m.«local» ++ ['/']).isPrefixOf nLocalRel

/-- The value the `applyPathMappings` loop returns when rule `m` fires. -/
def ruleApply (nLocalRel nRoot : List Char) (m : PathMapping) : List Char :=
  let nLocalPre := normalizePath m.«local»
  let nDevPre := normalizePath m.device
  if nLocalRel = nLocalPre then
    if nDevPre = [] ∨ nDevPre = ['/'] then ['/'] else nDevPre
  else
    let relativePart := nLocalRel.drop (nLocalPre.length + 1)
    let devicePath0 :=
      if nDevPre = [] ∨ nDevPre = ['/'] then '/' :: relativePart
      else nDevPre ++ '/' :: relativePart
    let devicePath :=
      if nRoot ≠ [] ∧ nRoot.isPrefixOf nDevPre = false then
        if nDevPre = [] ∨ nDevPre = ['/'] then nRoot ++ '/' :: relativePart
        else nRoot ++ '/' :: (nDevPre ++ '/' :: relativePart)
      else devicePath0
    collapseSlashes devicePath

/-- The `for (const mapping of mappings)` loop of `applyPathMappings`:
`some r` when some rule matched and the loop returned `r`, `none` when the scan fell
through.  The two `return` branches of the loop body are `ruleApply`. -/
def applyLoop (nLocalRel nRoot : List Char) : List PathMapping → Option (List Char)
  | [] => none
  | m :: rest =>
    if ruleMatches nLocalRel m then some (ruleApply nLocalRel nRoot m)
    else applyLoop nLocalRel nRoot rest

/-- Embedding of `applyPathMappings` (pathMapping.ts line 84). -/
def applyPathMappings (localRel rootPath : List Char)
    (mappings : Option (List PathMapping)) : List Char :=
  let nLocalRel := normalizePath localRel
  let nRoot := normRoot rootPath
  let ms := mappings.getD []
  if ms = [] then noMappingJoin nRoot nLocalRel
  else
    match applyLoop nLocalRel nRoot ms with
    | some r => r
    | none => noMappingJoin nRoot nLocalRel

/-- The rule's device prefix with one leading slash stripped, as computed inside the
`reversePathMappings` loop. -/
def effDevPre (m : PathMapping) : List Char :=
  if (['/'] : List Char).isPrefixOf (normalizePath m.device) then
    (normalizePath m.device).drop 1
  else normalizePath m.device

/-- The root-stripping step of `reversePathMappings`: remove `nRoot + "/"` when it is a
prefix of the device path, else remove a single leading slash when present. -/
def stripRoot (nDev nRoot : List Char) : List Char :=
  if nRoot ≠ [] ∧ (nRoot ++ ['/']).isPrefixOf nDev then nDev.drop (nRoot.length + 1)
  else if (['/'] : List Char).isPrefixOf nDev then nDev.drop 1
  else nDev

/-- The condition on which the `reversePathMappings` loop returns at rule `m`:
empty (or `"/"`) effective device prefix, exact match, or prefix match. -/
def revRuleFires (relDev : List Char) (m : PathMapping) : Bool :=
  decide (effDevPre m = []) || decide (effDevPre m = ['/'])
    || decide (relDev = effDevPre m)
    || (effDevPre m ++ ['/']).isPrefixOf relDev

/-- The `for (const mapping of mappings)` loop of `reversePathMappings`. -/
def reverseLoop (relDev : List Char) : List PathMapping → Option (List Char)
  | [] => none
  | m :: rest =>
    if effDevPre m = [] ∨ effDevPre m = ['/'] then
      some (normalizePath m.«local» ++ '/' :: relDev)
    else if relDev = effDevPre m then
      some (normalizePath m.«local»)
    else if (effDevPre m ++ ['/']).isPrefixOf relDev then
      some (normalizePath m.«local» ++ '/' :: relDev.drop ((effDevPre m).length + 1))
    else reverseLoop relDev rest

/-- Embedding of `reversePathMappings` (pathMapping.ts line 166). -/
def reversePathMappings (devicePath rootPath : List Char)
    (mappings : Option (List PathMapping)) : List Char :=
  let relDev := stripRoot (normalizePath devicePath) (normRoot rootPath)
  let ms := mappings.getD []
  if ms = [] then relDev
  else
    match reverseLoop relDev ms with
    | some r => r
    | none => relDev

/-- Embedding of Node's `path.posix.dirname`: scan from the end skipping trailing
slashes, cut just before the last component; index 0 is never the cut point. -/
def dirname (p : List Char) : List Char :=
  match p with
  | [] => ['.']
  | c :: q =>
    let t := (q.reverse.dropWhile (fun x => x = '/')).dropWhile (fun x => x ≠ '/')
    if t = [] then (if c = '/' then ['/'] else ['.'])
    else if c = '/' ∧ t.length = 1 then ['/', '/']
    else (c :: q).take t.length

/-- Embedding of `getMappedDeviceDirectory` (pathMapping.ts line 232). -/
def getMappedDeviceDirectory (localRel rootPath : List Char)
    (mappings : Option (List PathMapping)) : List Char :=
  let dir := dirname (applyPathMappings localRel rootPath mappings)
  if dir = ['.'] then ['/'] else dir

/-- Fuelled form of the `while (currentDir !== "/" && currentDir !== ".")` walk of
`getAllMappedDirectories`; `ancestorDirsFuel_stable` below shows the fuel used by
`ancestorDirs` never runs out, so this is the loop itself. -/
def ancestorDirsFuel : Nat → List Char → List (List Char)
  | 0, _ => []
  | fuel + 1, d =>
    if d = ['/'] ∨ d = ['.'] then [] else d :: ancestorDirsFuel fuel (dirname d)

/-- The ancestor-directory walk of `getAllMappedDirectories`, started at `d`. -/
def ancestorDirs (d : List Char) : List (List Char) :=
  ancestorDirsFuel (d.length + 2) d

/-- JS `Set.add`: append a new element, keep the set unchanged on a duplicate. -/
def insertUniq (acc : List (List Char)) (x : List Char) : List (List Char) :=
  if x ∈ acc then acc else acc ++ [x]

/-- Embedding of the sort key of `getAllMappedDirectories`:
`a.split("/").filter((p) => p).length`, the number of non-empty segments. -/
def depth (p : List Char) : Nat :=
  ((p.splitOn '/').filter (fun s => s ≠ [])).length

instance : IsTotal (List Char) (fun a b => depth a ≤ depth b) :=
  ⟨fun a b => Nat.le_total (depth a) (depth b)⟩

instance : IsTrans (List Char) (fun a b => depth a ≤ depth b) :=
  ⟨fun _ _ _ h1 h2 => Nat.le_trans h1 h2⟩

/-- Embedding of `getAllMappedDirectories` (pathMapping.ts line 245): collect every
ancestor of every mapped file path into an insertion-ordered set, then stably sort
by ascending depth (JS `Array.prototype.sort` is stable, as is insertion sort). -/
def getAllMappedDirectories (localFiles : List (List Char)) (rootPath : List Char)
    (mappings : Option (List PathMapping)) : List (List Char) :=
  let dirs := localFiles.foldl
    (fun acc f =>
      (ancestorDirs (dirname (applyPathMappings f rootPath mappings))).foldl insertUniq acc)
    []
  dirs.insertionSort (fun a b => depth a ≤ depth b)

/-- No two adjacent slashes: the shape the collapse pass establishes. -/
def NoDoubleSlash (l : List Char) : Prop :=
  List.Chain' (fun a b => ¬(a = '/' ∧ b = '/')) l

example : normalizePath "a//b\\c/".data = "a/b/c".data := by decide
example : applyPathMappings "src/main.py".data "/".data
    (some [⟨"src".data, "/".data⟩]) = "/main.py".data := by decide
example : reversePathMappings "/main.py".data "/".data
    (some [⟨"src".data, "/".data⟩]) = "src/main.py".data := by decide
example : applyPathMappings "lib/utils.py".data "/".data
    (some [⟨"lib".data, "/lib".data⟩]) = "/lib/utils.py".data := by decide
example : applyPathMappings "x".data "abc".data (some []) = "abc/x".data := by decide
example : applyPathMappings "src".data "/".data
    (some [⟨"src".data, "lib".data⟩]) = "lib".data := by decide
example : normalizePath "/".data = [] := by decide
example : getAllMappedDirectories ["a/b/c.py".data, "a/d.py".data] "/".data
    (some []) = ["/a".data, "/a/b".data] := by decide
example : reversePathMappings (applyPathMappings [] "/r".data (some [])) "/r".data
    (some []) = "r".data := by decide
example : applyPathMappings "a/b".data "/r".data
    (some [⟨"a".data, "/r/x".data⟩]) = "/r/x/b".data := by decide
example : applyPathMappings "a/b".data "/r".data
    (some [⟨"a".data, "x".data⟩]) = "/r/x/b".data := by decide

theorem collapseSlashes_head? (l : List Char) :
    (collapseSlashes l).head? = l.head? := by
  induction l using collapseSlashes.induct with
  | case1 => rfl
  | case2 c => rfl
  | case3 c1 c2 rest h ih =>
    rw [collapseSlashes, if_pos h, ih]
    simp [h.1, h.2]
  | case4 c1 c2 rest h ih =>
    rw [collapseSlashes, if_neg h]
    rfl

theorem collapseSlashes_chain' (l : List Char) : NoDoubleSlash (collapseSlashes l) := by
  induction l using collapseSlashes.induct with
  | case1 => exact List.chain'_nil
  | case2 c => exact List.chain'_singleton c
  | case3 c1 c2 rest h ih =>
    rw [NoDoubleSlash, collapseSlashes, if_pos h]
    exact ih
  | case4 c1 c2 rest h ih =>
    rw [NoDoubleSlash, collapseSlashes, if_neg h]
    rw [List.chain'_cons']
    refine ⟨fun y hy => ?_, ih⟩
    rw [collapseSlashes_head?] at hy
    simp only [List.head?_cons, Option.mem_def, Option.some.injEq] at hy
    subst hy
    exact h

theorem collapseSlashes_eq_self {l : List Char} (h : NoDoubleSlash l) :
    collapseSlashes l = l := by
  induction l using collapseSlashes.induct with
  | case1 => rfl
  | case2 c => rfl
  | case3 c1 c2 rest hc ih =>
    exact absurd hc (List.chain'_cons.mp h).1
  | case4 c1 c2 rest hc ih =>
    rw [collapseSlashes, if_neg hc, ih (List.Chain'.tail h)]

theorem collapseSlashes_sublist (l : List Char) : List.Sublist (collapseSlashes l) l := by
  induction l using collapseSlashes.induct with
  | case1 => exact List.Sublist.refl _
  | case2 c => exact List.Sublist.refl _
  | case3 c1 c2 rest h ih =>
    rw [collapseSlashes, if_pos h]
    exact ih.cons c1
  | case4 c1 c2 rest h ih =>
    rw [collapseSlashes, if_neg h]
    exact ih.cons₂ c1

theorem collapseSlashes_ne_nil {l : List Char} (h : l ≠ []) : collapseSlashes l ≠ [] := by
  intro hc
  have := collapseSlashes_head? l
  rw [hc] at this
  cases l with
  | nil => exact h rfl
  | cons c q => simp at this

theorem backslashToSlash_eq_self {l : List Char} (h : ∀ c ∈ l, c ≠ '\\') :
    backslashToSlash l = l := by
  induction l with
  | nil => rfl
  | cons c rest ih =>
    unfold backslashToSlash at ih ⊢
    simp only [List.map_cons]
    rw [if_neg (h c (List.mem_cons_self c rest)),
      ih (fun x hx => h x (List.mem_cons_of_mem c hx))]

theorem mem_backslashToSlash {c : Char} {l : List Char} (h : c ∈ backslashToSlash l) :
    c ≠ '\\' := by
  unfold backslashToSlash at h
  rw [List.mem_map] at h
  obtain ⟨a, _, ha⟩ := h
  subst ha
  split
  · decide
  · assumption

theorem backslashToSlash_head? (l : List Char) :
    (backslashToSlash l).head? = l.head?.map (fun c => if c = '\\' then '/' else c) := by
  cases l <;> rfl

theorem dropTrailingSlash_concat_slash (x : List Char) :
    dropTrailingSlash (x ++ ['/']) = x := by
  rw [dropTrailingSlash, if_pos, List.dropLast_concat]
  rw [List.getLast?_concat]

theorem dropTrailingSlash_eq_self {l : List Char} (h : l.getLast? ≠ some '/') :
    dropTrailingSlash l = l := by
  rw [dropTrailingSlash, if_neg h]

theorem dropTrailingSlash_cons_of_ne_nil {y : List Char} (c : Char) (h : y ≠ []) :
    dropTrailingSlash (c :: y) = c :: dropTrailingSlash y := by
  obtain ⟨b, ys, rfl⟩ : ∃ b ys, y = b :: ys := by
    cases y with
    | nil => exact absurd rfl h
    | cons b ys => exact ⟨b, ys, rfl⟩
  rw [dropTrailingSlash, dropTrailingSlash, List.getLast?_cons_cons]
  split
  · rw [List.dropLast_cons₂]
  · rfl

theorem noDoubleSlash_dropTrailingSlash {l : List Char} (h : NoDoubleSlash l) :
    NoDoubleSlash (dropTrailingSlash l) := by
  rw [dropTrailingSlash]
  split
  · next hl =>
    obtain ⟨x, rfl⟩ := List.getLast?_eq_some_iff.mp hl
    rw [List.dropLast_concat]
    exact (List.chain'_append.mp h).1
  · exact h

theorem noDoubleSlash_normalizePath (p : List Char) : NoDoubleSlash (normalizePath p) :=
  noDoubleSlash_dropTrailingSlash (collapseSlashes_chain' _)

theorem normalizePath_getLast? (p : List Char) :
    (normalizePath p).getLast? ≠ some '/' := by
  rw [normalizePath, dropTrailingSlash]
  split
  · next hl =>
    obtain ⟨x, hx⟩ := List.getLast?_eq_some_iff.mp hl
    rw [hx, List.dropLast_concat]
    intro hc
    obtain ⟨y, hy⟩ := List.getLast?_eq_some_iff.mp hc
    have hch := collapseSlashes_chain' (backslashToSlash p)
    rw [NoDoubleSlash, hx, hy, List.append_assoc] at hch
    have := (List.chain'_append.mp hch).2.1
    rw [List.singleton_append, List.chain'_cons] at this
    exact this.1 ⟨rfl, rfl⟩
  · next hl => exact hl

theorem mem_normalizePath {c : Char} {p : List Char} (h : c ∈ normalizePath p) :
    c ≠ '\\' := by
  rw [normalizePath] at h
  have h1 : c ∈ collapseSlashes (backslashToSlash p) := by
    rw [dropTrailingSlash] at h
    split at h
    · exact (List.dropLast_sublist _).mem h
    · exact h
  exact mem_backslashToSlash ((collapseSlashes_sublist _).mem h1)

theorem normalizePath_eq_self {l : List Char} (h1 : ∀ c ∈ l, c ≠ '\\')
    (h2 : NoDoubleSlash l) (h3 : l.getLast? ≠ some '/') : normalizePath l = l := by
  rw [normalizePath, backslashToSlash_eq_self h1, collapseSlashes_eq_self h2,
    dropTrailingSlash_eq_self h3]

theorem normalizePath_idem (p : List Char) :
    normalizePath (normalizePath p) = normalizePath p :=
  normalizePath_eq_self (fun _ hc => mem_normalizePath hc) (noDoubleSlash_normalizePath p)
    (normalizePath_getLast? p)

theorem normalizePath_ne_slash (p : List Char) : normalizePath p ≠ ['/'] := by
  intro h
  exact normalizePath_getLast? p (by rw [h]; rfl)

theorem normalizePath_nil : normalizePath [] = [] := rfl

theorem backslashToSlash_append (a b : List Char) :
    backslashToSlash (a ++ b) = backslashToSlash a ++ backslashToSlash b :=
  List.map_append _ a b

theorem backslashToSlash_slash : backslashToSlash ['/'] = ['/'] := rfl

theorem backslashToSlash_idem (p : List Char) :
    backslashToSlash (backslashToSlash p) = backslashToSlash p :=
  backslashToSlash_eq_self (fun _ hc => mem_backslashToSlash hc)

theorem dropTrailingSlash_collapseSlashes_concat (x : List Char) :
    dropTrailingSlash (collapseSlashes (x ++ ['/'])) =
      dropTrailingSlash (collapseSlashes x) := by
  induction x using collapseSlashes.induct with
  | case1 => decide
  | case2 c =>
    by_cases hc : c = '/'
    · subst hc; decide
    · rw [show ([c] ++ ['/'] : List Char) = c :: '/' :: [] from rfl]
      rw [show collapseSlashes (c :: '/' :: []) =
            if c = '/' ∧ ('/' : Char) = '/' then collapseSlashes ['/']
            else c :: collapseSlashes ['/'] from rfl]
      rw [if_neg (fun hh => hc hh.1)]
      rw [show collapseSlashes ['/'] = ['/'] from rfl,
        show collapseSlashes [c] = [c] from rfl]
      rw [show (c :: ['/']) = [c] ++ ['/'] from rfl, dropTrailingSlash_concat_slash,
        dropTrailingSlash_eq_self (by simpa using hc)]
  | case3 c1 c2 rest h ih =>
    rw [List.cons_append, List.cons_append, collapseSlashes, if_pos h,
      ← List.cons_append, ih, collapseSlashes, if_pos h]
  | case4 c1 c2 rest h ih =>
    rw [List.cons_append, List.cons_append, collapseSlashes, if_neg h,
      ← List.cons_append,
      dropTrailingSlash_cons_of_ne_nil c1 (collapseSlashes_ne_nil (by simp)), ih,
      collapseSlashes, if_neg h,
      dropTrailingSlash_cons_of_ne_nil c1 (collapseSlashes_ne_nil (by simp))]

theorem normalizePath_concat_slash (p : List Char) :
    normalizePath (p ++ ['/']) = normalizePath p := by
  rw [normalizePath, normalizePath, backslashToSlash_append, backslashToSlash_slash,
    dropTrailingSlash_collapseSlashes_concat]

theorem collapseSlashes_cons_slash_slash (y : List Char) :
    collapseSlashes ('/' :: '/' :: y) = collapseSlashes ('/' :: y) := by
  rw [collapseSlashes, if_pos ⟨rfl, rfl⟩]

theorem collapseSlashes_dedup (x y : List Char) :
    collapseSlashes (x ++ '/' :: '/' :: y) = collapseSlashes (x ++ '/' :: y) := by
  induction x using collapseSlashes.induct with
  | case1 =>
    rw [List.nil_append, List.nil_append, collapseSlashes_cons_slash_slash]
  | case2 c =>
    by_cases hc : c = '/'
    · subst hc
      rw [List.cons_append, List.nil_append, List.cons_append, List.nil_append,
        collapseSlashes_cons_slash_slash, collapseSlashes_cons_slash_slash]
    · rw [List.cons_append, List.nil_append, List.cons_append, List.nil_append,
        collapseSlashes, if_neg (fun hh => hc hh.1),
        collapseSlashes_cons_slash_slash]
      conv_rhs => rw [collapseSlashes, if_neg (fun hh => hc hh.1)]
  | case3 c1 c2 rest h ih =>
    rw [List.cons_append, List.cons_append, collapseSlashes, if_pos h,
      ← List.cons_append, ih]
    conv_rhs => rw [List.cons_append, List.cons_append, collapseSlashes, if_pos h]
    rw [List.cons_append]
  | case4 c1 c2 rest h ih =>
    rw [List.cons_append, List.cons_append, collapseSlashes, if_neg h,
      ← List.cons_append, ih]
    conv_rhs => rw [List.cons_append, List.cons_append, collapseSlashes, if_neg h]
    rw [List.cons_append]

theorem normalizePath_dedup_slash (a b : List Char) :
    normalizePath (a ++ '/' :: '/' :: b) = normalizePath (a ++ '/' :: b) := by
  rw [normalizePath, normalizePath, backslashToSlash_append, backslashToSlash_append]
  rw [show backslashToSlash ('/' :: '/' :: b) = '/' :: '/' :: backslashToSlash b from rfl,
    show backslashToSlash ('/' :: b) = '/' :: backslashToSlash b from rfl,
    collapseSlashes_dedup]

theorem normalizePath_backslashToSlash (p : List Char) :
    normalizePath (backslashToSlash p) = normalizePath p := by
  rw [normalizePath, normalizePath, backslashToSlash_idem]

theorem normalizePath_head?_of_slash {p : List Char} (h : p.head? = some '/') :
    normalizePath p = [] ∨ (normalizePath p).head? = some '/' := by
  have hb : (backslashToSlash p).head? = some '/' := by
    rw [backslashToSlash_head?, h]
    rfl
  have hl : (collapseSlashes (backslashToSlash p)).head? = some '/' := by
    rw [collapseSlashes_head?, hb]
  rw [normalizePath, dropTrailingSlash]
  split
  · next hg =>
    obtain ⟨x, hx⟩ := List.getLast?_eq_some_iff.mp hg
    rw [hx, List.dropLast_concat]
    cases x with
    | nil => exact Or.inl rfl
    | cons d ds =>
      right
      rw [hx, List.head?_append_of_ne_nil _ (by simp)] at hl
      exact hl
  · exact Or.inr hl

theorem noMappingJoin_eq_append (nRoot nLocalRel : List Char) :
    noMappingJoin nRoot nLocalRel = nRoot ++ '/' :: nLocalRel := by
  rw [noMappingJoin]
  split
  · next h => rw [h, List.nil_append]
  · rfl

theorem mem_normRoot {c : Char} {r : List Char} (h : c ∈ normRoot r) : c ≠ '\\' := by
  rw [normRoot] at h
  split at h
  · cases h
  · exact mem_normalizePath h

theorem normRoot_chain' (r : List Char) : NoDoubleSlash (normRoot r) := by
  rw [normRoot]
  split
  · exact List.chain'_nil
  · exact noDoubleSlash_normalizePath r

theorem normRoot_getLast? (r : List Char) : (normRoot r).getLast? ≠ some '/' := by
  rw [normRoot]
  split
  · simp
  · exact normalizePath_getLast? r

theorem stripRoot_append (nRoot x : List Char) :
    stripRoot (nRoot ++ '/' :: x) nRoot = x := by
  rw [stripRoot]
  by_cases h : nRoot = []
  · subst h
    rw [if_neg (by simp)]
    rw [List.nil_append, if_pos (by simp [List.isPrefixOf_iff_prefix])]
    rfl
  · rw [if_pos]
    · rw [show nRoot ++ '/' :: x = (nRoot ++ ['/']) ++ x by simp,
        show nRoot.length + 1 = (nRoot ++ ['/']).length by simp]
      exact List.drop_left _ _
    · refine ⟨h, ?_⟩
      rw [List.isPrefixOf_iff_prefix,
        show nRoot ++ '/' :: x = (nRoot ++ ['/']) ++ x by simp]
      exact List.prefix_append _ _

theorem applyLoop_cons_not_matching {nLocalRel nRoot : List Char} {m : PathMapping}
    {rest : List PathMapping} (h : ruleMatches nLocalRel m = false) :
    applyLoop nLocalRel nRoot (m :: rest) = applyLoop nLocalRel nRoot rest := by
  simp [applyLoop, h]

theorem applyLoop_cons_matching {nLocalRel nRoot : List Char} {m : PathMapping}
    {rest : List PathMapping} (h : ruleMatches nLocalRel m = true) :
    applyLoop nLocalRel nRoot (m :: rest) = some (ruleApply nLocalRel nRoot m) := by
  simp [applyLoop, h]

theorem applyLoop_append_skip {nLocalRel nRoot : List Char} {pre ms : List PathMapping}
    (h : ∀ m' ∈ pre, ruleMatches nLocalRel m' = false) :
    applyLoop nLocalRel nRoot (pre ++ ms) = applyLoop nLocalRel nRoot ms := by
  induction pre with
  | nil => rfl
  | cons a l ih =>
    rw [List.cons_append, applyLoop_cons_not_matching (h a (List.mem_cons_self a l)),
      ih (fun x hx => h x (List.mem_cons_of_mem a hx))]

theorem reverseLoop_cons_not_firing {relDev : List Char} {m : PathMapping}
    {rest : List PathMapping} (h : revRuleFires relDev m = false) :
    reverseLoop relDev (m :: rest) = reverseLoop relDev rest := by
  rw [revRuleFires] at h
  simp only [Bool.or_eq_false_iff, decide_eq_false_iff_not] at h
  simp [reverseLoop, h.1.1.1, h.1.1.2, h.1.2, h.2]

theorem reverseLoop_cons_empty {relDev : List Char} {m : PathMapping}
    {rest : List PathMapping} (h : effDevPre m = []) :
    reverseLoop relDev (m :: rest) = some (normalizePath m.«local» ++ '/' :: relDev) := by
  simp [reverseLoop, h]

theorem reverseLoop_append_skip {relDev : List Char} {pre ms : List PathMapping}
    (h : ∀ m' ∈ pre, revRuleFires relDev m' = false) :
    reverseLoop relDev (pre ++ ms) = reverseLoop relDev ms := by
  induction pre with
  | nil => rfl
  | cons a l ih =>
    rw [List.cons_append, reverseLoop_cons_not_firing (h a (List.mem_cons_self a l)),
      ih (fun x hx => h x (List.mem_cons_of_mem a hx))]

theorem ruleApply_head? {nLocalRel nRoot : List Char} {m : PathMapping}
    (hRoot : nRoot = [] ∨ nRoot.head? = some '/')
    (hDev : normalizePath m.device = [] ∨ (normalizePath m.device).head? = some '/') :
    (ruleApply nLocalRel nRoot m).head? = some '/' := by
  simp only [ruleApply]
  split
  · split
    · rfl
    · next hnd =>
      rcases hDev with h | h
      · exact absurd (Or.inl h) hnd
      · exact h
  · rw [collapseSlashes_head?]
    split
    · next hc =>
      split
      · rw [List.head?_append_of_ne_nil _ hc.1]
        rcases hRoot with h | h
        · exact absurd h hc.1
        · exact h
      · rw [List.head?_append_of_ne_nil _ hc.1]
        rcases hRoot with h | h
        · exact absurd h hc.1
        · exact h
    · split
      · rfl
      · next hnd =>
        have hne : normalizePath m.device ≠ [] := fun hh => hnd (Or.inl hh)
        rcases hDev with h | h
        · exact absurd h hne
        · rw [List.head?_append_of_ne_nil _ hne]
          exact h

theorem applyLoop_head? {nLocalRel nRoot : List Char} {ms : List PathMapping} {r : List Char}
    (hRoot : nRoot = [] ∨ nRoot.head? = some '/')
    (hDev : ∀ m ∈ ms, normalizePath m.device = [] ∨ (normalizePath m.device).head? = some '/')
    (h : applyLoop nLocalRel nRoot ms = some r) : r.head? = some '/' := by
  induction ms with
  | nil => cases h
  | cons a l ih =>
    rw [applyLoop] at h
    split at h
    · injection h with h2
      exact h2 ▸ ruleApply_head? hRoot (hDev a (List.mem_cons_self a l))
    · exact ih (fun m hm => hDev m (List.mem_cons_of_mem a hm)) h

theorem noMappingJoin_head? {nRoot nLocalRel : List Char}
    (hRoot : nRoot = [] ∨ nRoot.head? = some '/') :
    (noMappingJoin nRoot nLocalRel).head? = some '/' := by
  rw [noMappingJoin]
  split
  · rfl
  · next h =>
    rcases hRoot with h' | h'
    · exact absurd h' h
    · rw [List.head?_append_of_ne_nil _ h]
      exact h'

/-- C1 (amended): whenever the effective root is empty or the normalized root begins
with a slash, and every rule's normalized device prefix is empty or begins with a
slash, `applyPathMappings` returns a path starting with the character `'/'`. -/
theorem applyPathMappings_absolute_of_rooted_inputs
    (localRel rootPath : List Char) (mappings : Option (List PathMapping))
    (hRoot : normRoot rootPath = [] ∨ (normRoot rootPath).head? = some '/')
    (hDev : ∀ m ∈ mappings.getD [], normalizePath m.device = [] ∨
      (normalizePath m.device).head? = some '/') :
    (applyPathMappings localRel rootPath mappings).head? = some '/' := by
  simp only [applyPathMappings]
  split
  · exact noMappingJoin_head? hRoot
  · split
    · next r heq => exact applyLoop_head? hRoot hDev heq
    · exact noMappingJoin_head? hRoot

/-- C1 witness: a root and a rule with absolute device prefix give an absolute result. -/
theorem applyPathMappings_absolute_witness :
    (applyPathMappings "a/b".data "/flash".data
      (some [⟨"a".data, "/lib".data⟩])).head? = some '/' :=
  applyPathMappings_absolute_of_rooted_inputs "a/b".data "/flash".data
    (some [⟨"a".data, "/lib".data⟩]) (by decide) (by decide)

/-- C1 counterexample: with the root `"abc"` (no leading slash) the no-rule join is
`"abc/x"`, and with root `"/"` and a rule whose device prefix is the relative `"lib"`,
the exact-match branch returns `"lib"`; neither starts with `'/'`. -/
theorem applyPathMappings_not_always_absolute :
    (applyPathMappings "x".data "abc".data (some [])).head? ≠ some '/' ∧
    (applyPathMappings "src".data "/".data
      (some [⟨"src".data, "lib".data⟩])).head? ≠ some '/' := by decide

/-- C3: first-match-wins — with every rule before `m` failing to match, the result is
`m`'s, whatever rules (matching or not) follow `m`. -/
theorem applyPathMappings_first_match_wins
    (localRel rootPath : List Char) (pre : List PathMapping) (m : PathMapping)
    (rest : List PathMapping)
    (hpre : ∀ m' ∈ pre, ruleMatches (normalizePath localRel) m' = false)
    (hm : ruleMatches (normalizePath localRel) m = true) :
    applyPathMappings localRel rootPath (some (pre ++ m :: rest)) =
      ruleApply (normalizePath localRel) (normRoot rootPath) m := by
  simp only [applyPathMappings, Option.getD_some]
  rw [if_neg (List.append_ne_nil_of_right_ne_nil pre (List.cons_ne_nil m rest)),
    applyLoop_append_skip hpre, applyLoop_cons_matching hm]

/-- C3 witness: two rules match `"a/b"`; the result is the first one's, not the second's. -/
theorem applyPathMappings_first_match_wins_witness :
    applyPathMappings "a/b".data "/".data
      (some ([⟨"x".data, "y".data⟩] ++ ⟨"a".data, "/d1".data⟩ :: [⟨"a".data, "/d2".data⟩])) =
      ruleApply (normalizePath "a/b".data) (normRoot "/".data) ⟨"a".data, "/d1".data⟩ :=
  applyPathMappings_first_match_wins "a/b".data "/".data [⟨"x".data, "y".data⟩]
    ⟨"a".data, "/d1".data⟩ [⟨"a".data, "/d2".data⟩] (by decide) (by decide)

/-- C2: once the scan reaches the first rule whose effective device prefix is empty,
`reversePathMappings` returns that rule's local prefix joined to the root-stripped
device path, whatever rules follow. -/
theorem reversePathMappings_root_rule_unconditional
    (devicePath rootPath : List Char) (pre : List PathMapping) (m : PathMapping)
    (rest : List PathMapping)
    (hpre : ∀ m' ∈ pre,
      revRuleFires (stripRoot (normalizePath devicePath) (normRoot rootPath)) m' = false)
    (hm : effDevPre m = []) :
    reversePathMappings devicePath rootPath (some (pre ++ m :: rest)) =
      normalizePath m.«local» ++ '/' ::
        stripRoot (normalizePath devicePath) (normRoot rootPath) := by
  simp only [reversePathMappings, Option.getD_some]
  rw [if_neg (List.append_ne_nil_of_right_ne_nil pre (List.cons_ne_nil m rest)),
    reverseLoop_append_skip hpre, reverseLoop_cons_empty hm]

/-- C2 witness: the root-mapping rule `{src, /}` fires on `"/main.py"` even though a
later rule matches the same device path exactly. -/
theorem reversePathMappings_root_rule_unconditional_witness :
    reversePathMappings "/main.py".data "/".data
      (some ([⟨"lib".data, "/lib".data⟩] ++ ⟨"src".data, "/".data⟩ ::
        [⟨"mn".data, "/main.py".data⟩])) = "src/main.py".data := by
  rw [reversePathMappings_root_rule_unconditional "/main.py".data "/".data
    [⟨"lib".data, "/lib".data⟩] ⟨"src".data, "/".data⟩ [⟨"mn".data, "/main.py".data⟩]
    (by decide) (by decide)]
  decide

/-- C4: without rules, `applyPathMappings` is normalized concatenation under the root,
and a bare leading slash when the effective root is empty. -/
theorem applyPathMappings_identity_without_rules (localRel rootPath : List Char) :
    applyPathMappings localRel rootPath (some []) =
      normalizePath rootPath ++ '/' :: normalizePath localRel ∧
    ((rootPath = ['/'] ∨ normalizePath rootPath = []) →
      applyPathMappings localRel rootPath (some []) = '/' :: normalizePath localRel) := by
  have h1 : applyPathMappings localRel rootPath (some []) =
      normRoot rootPath ++ '/' :: normalizePath localRel := by
    simp only [applyPathMappings, Option.getD_some, if_pos rfl]
    exact noMappingJoin_eq_append _ _
  constructor
  · rw [h1, normRoot]
    split
    · next h => rw [h, show normalizePath ['/'] = [] from rfl]
    · rfl
  · intro h
    rw [h1, normRoot]
    rcases h with h | h
    · rw [if_pos h, List.nil_append]
    · split
      · rw [List.nil_append]
      · rw [h, List.nil_append]

/-- C4 witness: with root `"/"` the join is just the slash-prefixed local path. -/
theorem applyPathMappings_identity_without_rules_witness :
    applyPathMappings "a".data "/".data (some []) = '/' :: normalizePath "a".data :=
  (applyPathMappings_identity_without_rules "a".data "/".data).2 (Or.inl rfl)

/-- C5: round trip of the root-relative rule `{local: "src", device: "/"}` at root `"/"`. -/
theorem roundTrip_root_relative_rule :
    applyPathMappings "src/main.py".data "/".data (some [⟨"src".data, "/".data⟩]) =
      "/main.py".data ∧
    reversePathMappings "/main.py".data "/".data (some [⟨"src".data, "/".data⟩]) =
      "src/main.py".data := by decide

/-- C7: in a prefix match under a non-empty effective root, the root is prepended
exactly when the rule's normalized device prefix does not start with the root; when it
does, the composed path is the device prefix, a slash, and the remainder, with no
root prepended; either way the result has its slash runs collapsed. -/
theorem applyPathMappings_root_composition
    (localRel rootPath : List Char) (m : PathMapping)
    (hRoot : normRoot rootPath ≠ [])
    (hNe : normalizePath localRel ≠ normalizePath m.«local»)
    (hPre : (normalizePath m.«local» ++ ['/']).isPrefixOf (normalizePath localRel) = true) :
    ((normRoot rootPath).isPrefixOf (normalizePath m.device) = true →
      applyPathMappings localRel rootPath (some [m]) =
        collapseSlashes (normalizePath m.device ++ '/' ::
          (normalizePath localRel).drop ((normalizePath m.«local»).length + 1))) ∧
    ((normRoot rootPath).isPrefixOf (normalizePath m.device) = false →
      applyPathMappings localRel rootPath (some [m]) =
        collapseSlashes (normRoot rootPath ++ '/' ::
          (if normalizePath m.device = [] then
            (normalizePath localRel).drop ((normalizePath m.«local»).length + 1)
          else
            normalizePath m.device ++ '/' ::
              (normalizePath localRel).drop ((normalizePath m.«local»).length + 1)))) ∧
    NoDoubleSlash (applyPathMappings localRel rootPath (some [m])) := by
  have hmatch : ruleMatches (normalizePath localRel) m = true := by
    rw [ruleMatches, hPre, Bool.or_true]
  have happly : applyPathMappings localRel rootPath (some [m]) =
      ruleApply (normalizePath localRel) (normRoot rootPath) m := by
    simp only [applyPathMappings, Option.getD_some]
    rw [if_neg (List.cons_ne_nil m []), applyLoop_cons_matching hmatch]
  refine ⟨?_, ?_, ?_⟩
  · intro hpfx
    rw [happly]
    simp only [ruleApply]
    rw [if_neg hNe,
      if_neg (fun hc => by rw [hpfx] at hc; cases hc.2)]
    rw [if_neg]
    intro hor
    rcases hor with h | h
    · rw [h, List.isPrefixOf_iff_prefix] at hpfx
      exact hRoot (List.prefix_nil.mp hpfx)
    · exact normalizePath_ne_slash m.device h
  · intro hpfx
    rw [happly]
    simp only [ruleApply]
    rw [if_neg hNe, if_pos ⟨hRoot, hpfx⟩]
    by_cases hd : normalizePath m.device = []
    · rw [if_pos (Or.inl hd), if_pos hd]
    · rw [if_neg (fun hor => hor.elim hd (normalizePath_ne_slash m.device)), if_neg hd]
  · rw [happly]
    simp only [ruleApply]
    rw [if_neg hNe]
    exact collapseSlashes_chain' _

/-- C7 witness: device prefix `"/r/x"` already starts with root `"/r"`, so no root is
prepended. -/
theorem applyPathMappings_root_composition_witness :
    applyPathMappings "a/b".data "/r".data (some [⟨"a".data, "/r/x".data⟩]) =
      collapseSlashes (normalizePath "/r/x".data ++ '/' ::
        (normalizePath "a/b".data).drop ((normalizePath "a".data).length + 1)) :=
  (applyPathMappings_root_composition "a/b".data "/r".data ⟨"a".data, "/r/x".data⟩
    (by decide) (by decide) (by decide)).1 (by decide)

/-- C10 (amended): when the local path normalizes to a non-empty string without a
leading slash, mapping to the device and back with no rules is the identity up to
normalization; `mappings` may be `some []` or `none`. -/
theorem reverse_apply_no_rules_round_trip
    (localRel rootPath : List Char) (mappings : Option (List PathMapping))
    (hnil : normalizePath localRel ≠ [])
    (hhead : (normalizePath localRel).head? ≠ some '/')
    (hm : mappings.getD [] = []) :
    reversePathMappings (applyPathMappings localRel rootPath mappings) rootPath mappings =
      normalizePath localRel := by
  obtain ⟨b, ys, hby⟩ : ∃ b ys, normalizePath localRel = b :: ys := by
    cases hc : normalizePath localRel with
    | nil => exact absurd hc hnil
    | cons b ys => exact ⟨b, ys, rfl⟩
  have happly : applyPathMappings localRel rootPath mappings =
      normRoot rootPath ++ '/' :: normalizePath localRel := by
    simp only [applyPathMappings, hm, if_pos rfl]
    exact noMappingJoin_eq_append _ _
  have hfix : normalizePath (normRoot rootPath ++ '/' :: normalizePath localRel) =
      normRoot rootPath ++ '/' :: normalizePath localRel := by
    apply normalizePath_eq_self
    · intro c hc
      rcases List.mem_append.mp hc with h | h
      · exact mem_normRoot h
      · rcases List.mem_cons.mp h with h | h
        · subst h; decide
        · exact mem_normalizePath h
    · rw [NoDoubleSlash, List.chain'_append]
      refine ⟨normRoot_chain' rootPath, ?_, ?_⟩
      · rw [List.chain'_cons']
        refine ⟨?_, noDoubleSlash_normalizePath localRel⟩
        intro y hy hcon
        rw [Option.mem_def] at hy
        exact hhead (by rw [hy, hcon.2])
      · intro x hx y hy hcon
        rw [Option.mem_def] at hx
        exact normRoot_getLast? rootPath (by rw [hx, hcon.1])
    · rw [List.getLast?_append, hby, List.getLast?_cons_cons]
      have h1 := normalizePath_getLast? localRel
      rw [hby] at h1
      rw [List.getLast?_eq_getLast (b :: ys) (List.cons_ne_nil b ys)] at h1 ⊢
      simp only [Option.or_some]
      exact h1
  rw [happly]
  simp only [reversePathMappings, hm, if_pos rfl]
  rw [hfix, stripRoot_append]
  simp

/-- C10 witness: `"a/b"` under root `"/r"` maps to `"/r/a/b"` and back to `"a/b"`. -/
theorem reverse_apply_no_rules_round_trip_witness :
    reversePathMappings (applyPathMappings "a/b".data "/r".data (some [])) "/r".data
      (some []) = normalizePath "a/b".data :=
  reverse_apply_no_rules_round_trip "a/b".data "/r".data (some [])
    (by decide) (by decide) rfl

/-- C10 counterexample: for `localRel = ""` (normalizes to `""`, which has no leading
slash) and root `"/r"`, the round trip returns `"r"`, not `""`. -/
theorem round_trip_fails_on_empty_local :
    (normalizePath ([] : List Char)).head? ≠ some '/' ∧
    reversePathMappings (applyPathMappings [] "/r".data (some [])) "/r".data (some [])
      ≠ normalizePath ([] : List Char) := by decide

/-- C8: normalization is idempotent, and variants of a path differing only in
backslashes versus forward slashes, in a duplicated slash, or in a trailing slash all
normalize to the same canonical slash-delimited string. -/
theorem normalizePath_idempotent_and_variants :
    (∀ p : List Char, normalizePath (normalizePath p) = normalizePath p) ∧
    (∀ p : List Char, normalizePath (backslashToSlash p) = normalizePath p) ∧
    (∀ p : List Char, normalizePath (p ++ ['/']) = normalizePath p) ∧
    (∀ a b : List Char,
      normalizePath (a ++ '/' :: '/' :: b) = normalizePath (a ++ '/' :: b)) :=
  ⟨normalizePath_idem, normalizePath_backslashToSlash, normalizePath_concat_slash,
    normalizePath_dedup_slash⟩

/-- C9 (amended): on an input with a leading slash the normalizer returns the empty
string or a string with a leading slash; backslashes are gone, no two slashes are
adjacent, no trailing slash remains, and the empty string maps to itself. -/
theorem normalizePath_canonical_form :
    (∀ p : List Char, p.head? = some '/' →
      normalizePath p = [] ∨ (normalizePath p).head? = some '/') ∧
    (∀ p : List Char, ∀ c ∈ normalizePath p, c ≠ '\\') ∧
    (∀ p : List Char, NoDoubleSlash (normalizePath p)) ∧
    (∀ p : List Char, (normalizePath p).getLast? ≠ some '/') ∧
    normalizePath [] = [] :=
  ⟨fun _ h => normalizePath_head?_of_slash h, fun _ _ hc => mem_normalizePath hc,
    noDoubleSlash_normalizePath, normalizePath_getLast?, rfl⟩

/-- C9 witness: `"/a/"` begins with a slash, and its normal form `"/a"` keeps it. -/
theorem normalizePath_canonical_form_witness :
    normalizePath "/a/".data = [] ∨ (normalizePath "/a/".data).head? = some '/' :=
  normalizePath_canonical_form.1 "/a/".data (by decide)

/-- C9 counterexample: `"/"` begins with a slash but normalizes to the empty string,
which does not. -/
theorem normalizePath_slash_counterexample :
    "/".data.head? = some '/' ∧ normalizePath "/".data = [] ∧
    (normalizePath "/".data).head? ≠ some '/' := by decide

theorem dirname_short (d : List Char) :
    dirname d = ['.'] ∨ dirname d = ['/'] ∨ (dirname d).length < d.length := by
  cases d with
  | nil => exact Or.inl rfl
  | cons c q =>
    simp only [dirname]
    by_cases h1 :
        ((q.reverse.dropWhile (fun x => x = '/')).dropWhile (fun x => x ≠ '/')) = []
    · rw [if_pos h1]
      by_cases h2 : c = '/'
      · rw [if_pos h2]
        exact Or.inr (Or.inl rfl)
      · rw [if_neg h2]
        exact Or.inl rfl
    · rw [if_neg h1]
      by_cases h2 : c = '/' ∧
          ((q.reverse.dropWhile (fun x => x = '/')).dropWhile (fun x => x ≠ '/')).length = 1
      · rw [if_pos h2]
        refine Or.inr (Or.inr ?_)
        cases q with
        | nil => exact absurd rfl h1
        | cons x q' =>
          cases q' with
          | nil =>
            exfalso
            apply h1
            by_cases hx : x = '/' <;> simp [List.dropWhile, hx]
          | cons y q'' => simp
      · rw [if_neg h2]
        refine Or.inr (Or.inr ?_)
        rw [List.length_take]
        have ht :
            ((q.reverse.dropWhile (fun x => x = '/')).dropWhile (fun x => x ≠ '/')).length ≤
              q.length := by
          refine le_trans (List.dropWhile_sublist _).length_le ?_
          refine le_trans (List.dropWhile_sublist _).length_le ?_
          rw [List.length_reverse]
        refine lt_of_le_of_lt (min_le_left _ _) ?_
        rw [List.length_cons]
        omega

theorem ancestorDirsFuel_terminal {d : List Char} (f : Nat)
    (h : d = ['/'] ∨ d = ['.']) : ancestorDirsFuel f d = [] := by
  cases f with
  | zero => rfl
  | succ f => rw [ancestorDirsFuel, if_pos h]

theorem ancestorDirsFuel_congr :
    ∀ (f1 f2 : Nat) (d : List Char), d.length + 2 ≤ f1 → d.length + 2 ≤ f2 →
      ancestorDirsFuel f1 d = ancestorDirsFuel f2 d := by
  intro f1
  induction f1 with
  | zero => intro f2 d h1 _; omega
  | succ a ih =>
    intro f2 d h1 h2
    obtain ⟨b, rfl⟩ : ∃ b, f2 = b + 1 := by
      cases f2 with
      | zero => omega
      | succ b => exact ⟨b, rfl⟩
    rw [ancestorDirsFuel, ancestorDirsFuel]
    by_cases hterm : d = ['/'] ∨ d = ['.']
    · rw [if_pos hterm, if_pos hterm]
    · rw [if_neg hterm, if_neg hterm]
      rcases dirname_short d with h | h | h
      · rw [ancestorDirsFuel_terminal a (Or.inr h), ancestorDirsFuel_terminal b (Or.inr h)]
      · rw [ancestorDirsFuel_terminal a (Or.inl h), ancestorDirsFuel_terminal b (Or.inl h)]
      · rw [ih b (dirname d) (by omega) (by omega)]

/-- The fuel used by `ancestorDirs` is enough: any larger fuel computes the same walk,
so the fuelled definition agrees with the unbounded `while` loop of the source. -/
theorem ancestorDirsFuel_stable (f : Nat) (d : List Char) (h : d.length + 2 ≤ f) :
    ancestorDirsFuel f d = ancestorDirs d :=
  ancestorDirsFuel_congr f (d.length + 2) d h (Nat.le_refl _)

theorem splitOn_slash (l : List Char) : l.splitOn '/' = l.splitOnP (· == '/') := rfl

theorem depth_nil : depth [] = 0 := rfl

theorem depth_cons_slash (y : List Char) : depth ('/' :: y) = depth y := by
  rw [depth, depth, splitOn_slash, splitOn_slash, List.splitOnP_cons]
  simp

theorem depth_no_slash {x : List Char} (h : ∀ c ∈ x, ¬((c == '/') = true)) :
    depth x = if x = [] then 0 else 1 := by
  rw [depth, splitOn_slash, List.splitOnP_eq_single _ _ h]
  by_cases hx : x = []
  · simp [hx]
  · simp [hx]

theorem depth_append_slash : ∀ (x y : List Char), depth (x ++ '/' :: y) = depth x + depth y := by
  have main : ∀ (n : Nat) (x y : List Char), x.length ≤ n →
      depth (x ++ '/' :: y) = depth x + depth y := by
    intro n
    induction n with
    | zero =>
      intro x y hx
      obtain rfl : x = [] := List.eq_nil_of_length_eq_zero (Nat.le_zero.mp hx)
      rw [List.nil_append, depth_cons_slash, depth_nil, Nat.zero_add]
    | succ n ih =>
      intro x y hx
      by_cases hsl : '/' ∈ x
      · obtain ⟨s, t, rfl⟩ := List.append_of_mem hsl
        have hst : s.length + t.length + 1 ≤ n + 1 := by
          have := hx
          simp only [List.length_append, List.length_cons] at this
          omega
        rw [List.append_assoc, List.cons_append]
        rw [ih s (t ++ '/' :: y) (by omega), ih t y (by omega), ih s t (by omega)]
        omega
      · have hall : ∀ c ∈ x, ¬((c == '/') = true) := by
          intro c hc hb
          rw [beq_iff_eq] at hb
          exact hsl (hb ▸ hc)
        have h1 : depth x = if x = [] then 0 else 1 := depth_no_slash hall
        simp only [depth, splitOn_slash]
        rw [List.splitOnP_first _ _ hall '/' (by simp) y, List.filter_cons]
        by_cases hx0 : x = []
        · rw [if_neg (by simp [hx0])]
          have h2 : depth x = 0 := by rw [h1, if_pos hx0]
          rw [depth, splitOn_slash] at h2
          omega
        · rw [if_pos (by simp [hx0])]
          have h2 : depth x = 1 := by rw [h1, if_neg hx0]
          rw [depth, splitOn_slash] at h2
          simp only [List.length_cons]
          omega
  intro x y
  exact main x.length x y (Nat.le_refl _)

theorem depth_pos_of_mem_ne {rest : List Char} {c : Char} (hc : c ∈ rest) (hne : c ≠ '/') :
    0 < depth rest := by
  induction rest with
  | nil => cases hc
  | cons a t ih =>
    by_cases ha : a = '/'
    · subst ha
      rw [depth_cons_slash]
      rcases List.mem_cons.mp hc with h | h
      · exact absurd h hne
      · exact ih h
    · simp only [depth, splitOn_slash, List.splitOnP_cons]
      rw [if_neg (by simpa using ha)]
      obtain ⟨h0, tl, hL⟩ : ∃ h0 tl, List.splitOnP (fun x => x == '/') t = h0 :: tl := by
        cases hL : List.splitOnP (fun x => x == '/') t with
        | nil => exact absurd hL (List.splitOnP_ne_nil _ t)
        | cons h0 tl => exact ⟨h0, tl, rfl⟩
      rw [hL, List.modifyHead_cons, List.filter_cons, if_pos (by simp)]
      simp only [List.length_cons]
      omega

theorem mem_foldl_insertUniq (l : List (List Char)) (acc : List (List Char))
    (x : List Char) : x ∈ l.foldl insertUniq acc ↔ x ∈ acc ∨ x ∈ l := by
  induction l generalizing acc with
  | nil => simp
  | cons a t ih =>
    by_cases h : a ∈ acc
    · rw [List.foldl_cons, insertUniq, if_pos h, ih, List.mem_cons]
      constructor
      · rintro (hx | hx)
        · exact Or.inl hx
        · exact Or.inr (Or.inr hx)
      · rintro (hx | hx | hx)
        · exact Or.inl hx
        · exact Or.inl (hx ▸ h)
        · exact Or.inr hx
    · rw [List.foldl_cons, insertUniq, if_neg h, ih, List.mem_cons, List.mem_append,
        List.mem_singleton]
      constructor
      · rintro ((hx | hx) | hx)
        · exact Or.inl hx
        · exact Or.inr (Or.inl hx)
        · exact Or.inr (Or.inr hx)
      · rintro (hx | hx | hx)
        · exact Or.inl (Or.inl hx)
        · exact Or.inl (Or.inr hx)
        · exact Or.inr hx

theorem nodup_foldl_insertUniq (l : List (List Char)) {acc : List (List Char)}
    (h : acc.Nodup) : (l.foldl insertUniq acc).Nodup := by
  induction l generalizing acc with
  | nil => exact h
  | cons a t ih =>
    rw [List.foldl_cons]
    apply ih
    rw [insertUniq]
    split
    · exact h
    · next hna =>
      rw [List.nodup_append]
      exact ⟨h, List.nodup_singleton a,
        fun x hx hx' => hna (by rwa [List.mem_singleton.mp hx'] at hx)⟩

theorem mem_foldl_collect (g : List Char → List (List Char))
    (files : List (List Char)) (acc : List (List Char)) (x : List Char) :
    x ∈ files.foldl (fun acc f => (g f).foldl insertUniq acc) acc ↔
      x ∈ acc ∨ ∃ f ∈ files, x ∈ g f := by
  induction files generalizing acc with
  | nil => simp
  | cons a t ih =>
    rw [List.foldl_cons, ih, mem_foldl_insertUniq]
    simp only [List.mem_cons]
    constructor
    · rintro ((hx | hx) | ⟨f, hf, hxf⟩)
      · exact Or.inl hx
      · exact Or.inr ⟨a, Or.inl rfl, hx⟩
      · exact Or.inr ⟨f, Or.inr hf, hxf⟩
    · rintro (hx | ⟨f, hf | hf, hxf⟩)
      · exact Or.inl (Or.inl hx)
      · exact Or.inl (Or.inr (hf ▸ hxf))
      · exact Or.inr ⟨f, hf, hxf⟩

theorem nodup_foldl_collect (g : List Char → List (List Char))
    (files : List (List Char)) {acc : List (List Char)} (h : acc.Nodup) :
    (files.foldl (fun acc f => (g f).foldl insertUniq acc) acc).Nodup := by
  induction files generalizing acc with
  | nil => exact h
  | cons a t ih =>
    rw [List.foldl_cons]
    exact ih (nodup_foldl_insertUniq _ h)

/-- C6: `getAllMappedDirectories` returns a duplicate-free list holding exactly the
ancestor directories (excluding the root `"/"`) of every mapped file path, sorted by
ascending depth (number of non-empty segments), so no proper descendant precedes its
ancestor; on `["a/b/c.py", "a/d.py"]` with no rules and root `"/"` it is
`["/a", "/a/b"]`. -/
theorem getAllMappedDirectories_spec :
    (∀ (localFiles : List (List Char)) (rootPath : List Char)
        (mappings : Option (List PathMapping)),
      (getAllMappedDirectories localFiles rootPath mappings).Nodup ∧
      (getAllMappedDirectories localFiles rootPath mappings).Pairwise
        (fun a b => depth a ≤ depth b) ∧
      (getAllMappedDirectories localFiles rootPath mappings).Pairwise
        (fun a b => ¬∃ rest, a = b ++ '/' :: rest ∧ ∃ c ∈ rest, c ≠ '/') ∧
      (∀ d, d ∈ getAllMappedDirectories localFiles rootPath mappings ↔
        ∃ f ∈ localFiles,
          d ∈ ancestorDirs (dirname (applyPathMappings f rootPath mappings)))) ∧
    getAllMappedDirectories ["a/b/c.py".data, "a/d.py".data] "/".data (some []) =
      ["/a".data, "/a/b".data] := by
  constructor
  · intro localFiles rootPath mappings
    have hperm := List.perm_insertionSort (fun a b : List Char => depth a ≤ depth b)
      (localFiles.foldl (fun acc f =>
        (ancestorDirs (dirname (applyPathMappings f rootPath mappings))).foldl
          insertUniq acc) [])
    have hsorted := List.sorted_insertionSort (fun a b : List Char => depth a ≤ depth b)
      (localFiles.foldl (fun acc f =>
        (ancestorDirs (dirname (applyPathMappings f rootPath mappings))).foldl
          insertUniq acc) [])
    have hnodup : (localFiles.foldl (fun acc f =>
        (ancestorDirs (dirname (applyPathMappings f rootPath mappings))).foldl
          insertUniq acc) []).Nodup :=
      nodup_foldl_collect _ localFiles List.nodup_nil
    refine ⟨?_, ?_, ?_, ?_⟩
    · exact hperm.nodup_iff.mpr hnodup
    · exact hsorted
    · refine List.Pairwise.imp ?_ hsorted
      intro a b hab
      rintro ⟨rest, rfl, c, hc, hcne⟩
      rw [depth_append_slash] at hab
      have := depth_pos_of_mem_ne hc hcne
      omega
    · intro d
      exact (hperm.mem_iff).trans ((mem_foldl_collect _ _ _ _).trans (by simp))
  · decide
